import Mathlib

/-
Verification of the MFS (Mutable File System) path-operation layer of this
repository against its specification.

The Go command handlers live in src/unnamed/part_005 (package commands: the
files subcommands read, write, mv, cp, ls, mkdir, stat, rm, flush, chcid,
chmod, touch, plus the helpers checkPath, removePath, walkBlock,
getParentDir).  The TypeScript virtual-filesystem mirror lives in
src/unnamed/part_001 (utils/virtualFs.ts: createVirtualFs, findNode,
addFolder, addFile).

Strings are modelled as Lean String values; all character scanning is done on
the underlying character list so that every definition evaluates inside the
kernel.  Byte indexing in the Go source is modelled by character indexing,
which agrees with it on every position that the source actually inspects
(the separator character / is a single byte in UTF-8 and cannot occur inside
a multi-byte character).
-/

/-- Splitting a character list at the separator /.  This is the common model
of Go strings.Split with separator "/" (used through gopath) and of the
JavaScript String.split with separator "/" in utils/virtualFs.ts: both return
the (possibly empty) pieces between separators, including leading and
trailing empty pieces. -/
def splitSlashAux : List Char → List Char → List String
  | [], acc => [String.mk acc.reverse]
  | c :: rest, acc =>
    if c = '/' then String.mk acc.reverse :: splitSlashAux rest []
    else splitSlashAux rest (c :: acc)

/-- Split a string into its pieces between separator characters. -/
def splitSlash (s : String) : List String := splitSlashAux s.data []

/-- Lexicographic comparison of character lists by code point.  This embeds
the Go strings.Compare ordering (byte-lexicographic on UTF-8, which orders
exactly as code points do). -/
def lexLe : List Char → List Char → Bool
  | [], _ => true
  | _ :: _, [] => false
  | a :: as, b :: bs =>
    if a.toNat < b.toNat then true
    else if b.toNat < a.toNat then false
    else lexLe as bs

/-- Ordering on strings: strings.Compare(a, b) is at most zero. -/
def strLe (a b : String) : Bool := lexLe a.data b.data

/-- One step of the stack-based normalization of Go path.Clean
(the gopath.Clean call in checkPath, src/unnamed/part_005 line 1479).
A component that is empty or a dot is dropped; a dot-dot pops the previous
component when one is available, is dropped at the root of a rooted path, and
is kept at the front of an unrooted path; any other component is kept. -/
def cleanStep (rooted : Bool) (stack : List String) (part : String) : List String :=
  if part = "" ∨ part = "." then stack
  else if part = ".." then
    if stack ≠ [] ∧ stack.getLast? ≠ some ".." then stack.dropLast
    else if rooted then stack
    else stack ++ [".."]
  else stack ++ [part]

/-- Go path.Clean, embedded component-wise: the result is the separator-joined
stack of surviving components.  Clean of the empty string is a dot; a rooted
result keeps its leading separator; an unrooted path whose components all
cancel becomes a dot. -/
def goClean (p : String) : String :=
  match p.data with
  | [] => "."
  | c :: _ =>
    let stack := List.foldl (cleanStep (c == '/')) [] (splitSlash p)
    if c == '/' then "/" ++ String.intercalate "/" stack
    else if stack = [] then "." else String.intercalate "/" stack

/-- The component stack produced by cleaning a rooted path (the value joined
by goClean when the input starts with the separator). -/
def goCleanStack (p : String) : List String :=
  List.foldl (cleanStep true) [] (splitSlash p)

/-- checkPath from src/unnamed/part_005 lines 1470-1484: an empty path and a
path without a leading separator are rejected; otherwise the path is cleaned,
and a single trailing separator is put back when the original path ended with
one and was not the bare root. -/
def checkPath (p : String) : Except String String :=
  match p.data with
  | [] => Except.error "paths must not be empty"
  | c :: _ =>
    if c = '/' then
      let cleaned := goClean p
      if p.data.getLast? = some '/' ∧ p ≠ "/" then Except.ok (cleaned ++ "/")
      else Except.ok cleaned
    else Except.error "paths must start with a leading slash"

/-- Path handling of the flush command (src/unnamed/part_005 lines 1143-1165):
the raw argument (default "/") is handed to mfs.FlushPath directly; the flush
handler (like the chcid handler at lines 1183-1215) never calls checkPath, so
no path validation happens before the tree is touched. -/
def filesFlushCmdPath (args : List String) : Except String String :=
  Except.ok (match args with | [] => "/" | a :: _ => a)

/-- The read command body after the file has been opened
(src/unnamed/part_005 lines 778-805, filesReadCmd): a negative offset is
rejected, an offset strictly beyond the file size is rejected, a supplied
negative count is rejected; otherwise the emitted bytes are the content from
the offset on, limited to count bytes when a count was supplied. -/
def filesReadCmd (content : List Nat) (offset : Int) (count : Option Int) :
    Except String (List Nat) :=
  if offset < 0 then Except.error "cannot specify negative offset"
  else if (content.length : Int) < offset then
    Except.error ("offset was past end of file (" ++ toString offset ++ " > "
      ++ toString (content.length : Int) ++ ")")
  else
    match count with
    | some c =>
      if c < 0 then Except.error "cannot specify negative count"
      else Except.ok ((content.drop offset.toNat).take c.toNat)
    | none => Except.ok (content.drop offset.toNat)

/-- Errors of the MFS tree operations used by removePath.
Modelled from the spec: the boxo mfs library itself is not under src, so its
error taxonomy is taken from the spec (section 7): notExist is the
NotFoundError that mfs.Lookup, Directory.Child and Directory.Unlink report
for a missing entry (os.ErrNotExist in the source); notDir is the
NotADirectoryError reported when traversal walks through a non-directory;
expectedDir is the failure of the directory type assertion in getParentDir;
isDir is the removal of a directory without the recursive option;
cannotDeleteRoot is the RootOperationError of removePath. -/
inductive MfsErr where
  | notExist
  | notDir
  | expectedDir
  | isDir
  | cannotDeleteRoot
deriving DecidableEq

/-- Rendering of an MfsErr, used when the rm command wraps per-path failures
into messages. -/
def rmErrMsg : MfsErr → String
  | MfsErr.notExist => "file does not exist"
  | MfsErr.notDir => "not a directory"
  | MfsErr.expectedDir => "expected a directory"
  | MfsErr.isDir => "path is a directory, use -r to remove directories"
  | MfsErr.cannotDeleteRoot => "cannot delete root"

/-- An in-memory MFS node.
Modelled from the spec: section 3 describes the MFS tree as files plus
directories mapping names to child nodes (names unique among siblings); the
boxo mfs library holding this structure is not under src. -/
inductive MfsNode where
  | file (content : List Nat)
  | dir (entries : List (String × MfsNode))

/-- Directory.Child: the first entry carrying the requested name.
Modelled from the spec, section 4.2. -/
def childNamed (es : List (String × MfsNode)) (n : String) : Option MfsNode :=
  match es.find? (fun e => e.1 == n) with
  | some e => some e.2
  | none => none

/-- mfs.Lookup walking a list of already-normalized path components.
Modelled from the spec, section 4.1: each missing child is a NotFoundError
and each traversal through a non-directory is a NotADirectoryError. -/
def lookupNode : MfsNode → List String → Except MfsErr MfsNode
  | nd, [] => Except.ok nd
  | MfsNode.file _, _ :: _ => Except.error MfsErr.notDir
  | MfsNode.dir es, p :: ps =>
    match childNamed es p with
    | none => Except.error MfsErr.notExist
    | some c => lookupNode c ps

/-- The non-empty components of a path string, as walked by the resolver
(spec section 4.1: the resolver normalizes before walking, so empty
components produced by the separators are skipped). -/
def pathParts (s : String) : List String :=
  (splitSlash s).filter (fun c => c ≠ "")

/-- getParentDir from src/unnamed/part_005 lines 1486-1497: look the
directory path up and insist the result is a directory. -/
def getParentDir (root : MfsNode) (dir : String) :
    Except MfsErr (List (String × MfsNode)) :=
  match lookupNode root (pathParts dir) with
  | Except.error e => Except.error e
  | Except.ok (MfsNode.dir es) => Except.ok es
  | Except.ok (MfsNode.file _) => Except.error MfsErr.expectedDir

/-- Locate the first entry with the given name, returning the entries before
it, the child itself, and the entries after it. -/
def splitFirstEntry : List (String × MfsNode) → String →
    Option (List (String × MfsNode) × MfsNode × List (String × MfsNode))
  | [], _ => none
  | e :: rest, n =>
    if e.1 = n then some ([], e.2, rest)
    else
      match splitFirstEntry rest n with
      | none => none
      | some (pre, c, post) => some (e :: pre, c, post)

/-- Directory.Unlink on an entry list: remove the first entry with the given
name.  Modelled from the spec, section 4.2. -/
def eraseFirstNamed : List (String × MfsNode) → String → List (String × MfsNode)
  | [], _ => []
  | e :: rest, n => if e.1 = n then rest else e :: eraseFirstNamed rest n

/-- Unlink the entry called name inside the directory reached by the given
component list, rebuilding the tree along the walked path (the functional
rendering of the in-place Directory.Unlink mutation seen from the root). -/
def unlinkAt : MfsNode → List String → String → MfsNode
  | MfsNode.dir es, [], name => MfsNode.dir (eraseFirstNamed es name)
  | MfsNode.dir es, p :: ps, name =>
    match splitFirstEntry es p with
    | none => MfsNode.dir es
    | some (pre, c, post) => MfsNode.dir (pre ++ (p, unlinkAt c ps name) :: post)
  | nd, _, _ => nd

/-- Drop one trailing separator, as removePath does before splitting
(src/unnamed/part_005 lines 1299-1302). -/
def stripSlash (p : String) : String :=
  if p.data.getLast? = some '/' then String.mk p.data.dropLast else p

/-- gopath.Split: cut the path right after its last separator, returning the
directory part (separator included) and the file part. -/
def goSplit (p : String) : String × String :=
  match (splitSlash p).dropLast with
  | [] => ("", p)
  | ds => (String.intercalate "/" ds ++ "/", (splitSlash p).getLastD "")

/-- removePath from src/unnamed/part_005 lines 1294-1345: the root path is
always rejected; a trailing separator is stripped; the parent directory is
resolved (a missing parent succeeds silently under force); under force the
entry is unlinked if present and a missing entry succeeds silently; without
force a missing entry is a NotFoundError and a directory entry requires the
recursive option. -/
def removePath (root : MfsNode) (path : String) (force dashr : Bool) :
    Except MfsErr MfsNode :=
  if path = "/" then Except.error MfsErr.cannotDeleteRoot
  else
    match getParentDir root (goSplit (stripSlash path)).1 with
    | Except.error e =>
      if force ∧ e = MfsErr.notExist then Except.ok root else Except.error e
    | Except.ok es =>
      if force then
        match childNamed es (goSplit (stripSlash path)).2 with
        | none => Except.ok root
        | some _ =>
          Except.ok (unlinkAt root (pathParts (goSplit (stripSlash path)).1)
            (goSplit (stripSlash path)).2)
      else
        match childNamed es (goSplit (stripSlash path)).2 with
        | none => Except.error MfsErr.notExist
        | some (MfsNode.dir _) =>
          if !dashr then Except.error MfsErr.isDir
          else
            Except.ok (unlinkAt root (pathParts (goSplit (stripSlash path)).1)
              (goSplit (stripSlash path)).2)
        | some (MfsNode.file _) =>
          Except.ok (unlinkAt root (pathParts (goSplit (stripSlash path)).1)
            (goSplit (stripSlash path)).2)

/-- One iteration of the argument loop of the rm command
(src/unnamed/part_005 lines 1269-1280): an invalid path appends one error and
leaves the tree alone; a failing removal appends one error and leaves the
tree alone; a successful removal updates the tree and appends nothing. -/
def rmStep (force dashr : Bool) (st : MfsNode × List String) (arg : String) :
    MfsNode × List String :=
  match checkPath arg with
  | Except.error e => (st.1, st.2 ++ [arg ++ " is not a valid path: " ++ e])
  | Except.ok path =>
    match removePath st.1 path force dashr with
    | Except.error e => (st.1, st.2 ++ [path ++ ": " ++ rmErrMsg e])
    | Except.ok r => (r, st.2)

/-- The rm command over its argument list (src/unnamed/part_005 lines
1260-1291, filesRmCmd): every argument is attempted in order, the collected
per-path errors are emitted, and a combined failure is returned exactly when
at least one path failed. -/
def filesRmCmd (root : MfsNode) (args : List String) (force dashr : Bool) :
    (MfsNode × List String) × Except String Unit :=
  let st := List.foldl (rmStep force dashr) (root, []) args
  (st, if st.2 = [] then Except.ok () else Except.error "cannot remove some files")

/-- The codec of a CID, as inspected by the cp command sanity check
(node.Cid().Type(), src/unnamed/part_005 line 484). -/
inductive Codec where
  | raw
  | dagProtobuf
  | other (code : Nat)
deriving DecidableEq

/-- The dynamic representation of a resolved IPLD node: a raw leaf block, a
protobuf-structured node carrying a data payload, or anything else. -/
inductive NodeRepr where
  | rawNode (data : List Nat)
  | protoNode (data : List Nat)
  | otherNode
deriving DecidableEq

/-- A resolved IPLD node as the cp command sees it: its CID codec together
with its dynamic representation. -/
structure IpldNode where
  codec : Codec
  repr : NodeRepr
deriving DecidableEq

/-- The invalid-content error of the cp command (src/unnamed/part_005 line
405). -/
def errFilesCpInvalidUnixFS : String :=
  "cp: source must be a valid UnixFS (dag-pb or raw codec)"

/-- The source sanity check of the cp command (src/unnamed/part_005 lines
482-499): a raw-codec CID must resolve to a raw node; a dag-pb CID must
resolve to a protobuf node whose payload parses as a UnixFS node (the
FSNodeFromBytes parser is passed in as fsNodeOk, since the unixfs library is
not under src); every other codec is rejected. -/
def cpCheckSource (fsNodeOk : List Nat → Bool) (node : IpldNode) :
    Except String Unit :=
  match node.codec with
  | Codec.raw =>
    match node.repr with
    | NodeRepr.rawNode _ => Except.ok ()
    | _ => Except.error errFilesCpInvalidUnixFS
  | Codec.dagProtobuf =>
    match node.repr with
    | NodeRepr.protoNode d =>
      if fsNodeOk d then Except.ok ()
      else Except.error (errFilesCpInvalidUnixFS ++ ": invalid data")
    | _ => Except.error errFilesCpInvalidUnixFS
  | Codec.other _ => Except.error errFilesCpInvalidUnixFS

/-- The cp command after the source node has been resolved
(src/unnamed/part_005 lines 482-534, filesCpCmd): run the sanity check, and
only when it passes continue with the attachment of the node into the tree
(mkdir of parents, unlink under force, mfs.PutNode and the flushes), here
abstracted as the remaining computation attach. -/
def filesCpCmd (fsNodeOk : List Nat → Bool) (node : IpldNode)
    (attach : Except String Unit) : Except String Unit :=
  match cpCheckSource fsNodeOk node with
  | Except.error e => Except.error e
  | Except.ok _ => attach

/-- The recognized content encodings, following the words of the spec
(section 4.5): a raw leaf block, or a well-formed structured dag-pb node
whose payload decodes as a filesystem node. -/
def validUnixFS (fsNodeOk : List Nat → Bool) (node : IpldNode) : Bool :=
  match node.codec, node.repr with
  | Codec.raw, NodeRepr.rawNode _ => true
  | Codec.dagProtobuf, NodeRepr.protoNode d => fsNodeOk d
  | _, _ => false

/-- One entry of a directory listing (mfs.NodeListing). -/
structure NodeListing where
  Name : String
  EntryType : Int
  Size : Int
  Hash : String
deriving DecidableEq

/-- The emission order of the ls text encoder (src/unnamed/part_005 lines
697-720): without the do-not-sort option the entries are sorted by
strings.Compare on their names; with it they stay in directory order. -/
def lsOutputOrder (noSort : Bool) (entries : List NodeListing) :
    List NodeListing :=
  if noSort then entries
  else entries.mergeSort (fun a b => strLe a.Name b.Name)

mutual
/-- A DAG node as walkBlock sees it: its raw byte size together with its link
list.  Each link records the outcome of the offline block-store lookup that
walkBlock performs on it: consMissing is a link whose dagserv.Get misses
locally (ipld.IsNotFound), consFound carries the resolved child.  Lookups
that fail with any other error abort the walk in the source and are outside
this model. -/
inductive Blk where
  | mk (rawSize : Nat) (links : Links)
/-- The link list of a DAG node, each link pre-resolved against the local
block store. -/
inductive Links where
  | nil : Links
  | consMissing (tl : Links) : Links
  | consFound (child : Blk) (tl : Links) : Links
end

mutual
/-- walkBlock from src/unnamed/part_005 lines 374-403: start from the raw
size of the node, then for every link in order: a locally missing child
clears the local flag and the loop continues; a found child is walked
recursively, its local flag is conjoined and its size added. -/
def walkBlock : Blk → Bool × Nat
  | Blk.mk rawSize links => walkLinks links true rawSize
/-- The link loop of walkBlock, carrying the local flag and size
accumulators. -/
def walkLinks : Links → Bool → Nat → Bool × Nat
  | Links.nil, l, s => (l, s)
  | Links.consMissing rest, _, s => walkLinks rest false s
  | Links.consFound c rest, l, s =>
    let r := walkBlock c
    walkLinks rest (l && r.1) (s + r.2)
end

mutual
/-- Following the words of the spec (section 4.6): the fully-local flag of a
subtree, false as soon as one lookup misses anywhere in it. -/
def specFullyLocal : Blk → Bool
  | Blk.mk _ links => linksFullyLocal links
/-- The fully-local flag over a link list. -/
def linksFullyLocal : Links → Bool
  | Links.nil => true
  | Links.consMissing _ => false
  | Links.consFound c rest => specFullyLocal c && linksFullyLocal rest
end

mutual
/-- Following the words of the spec (section 4.6): the total bytes of the
blocks physically present in a subtree — the root block plus, for each link
whose child is present, the bytes of that child subtree; missing branches
contribute nothing but do not stop the count. -/
def specSizeLocal : Blk → Nat
  | Blk.mk raw links => raw + linksSizeLocal links
/-- The locally present bytes over a link list. -/
def linksSizeLocal : Links → Nat
  | Links.nil => 0
  | Links.consMissing rest => linksSizeLocal rest
  | Links.consFound c rest => specSizeLocal c + linksSizeLocal rest
end

mutual
/-- The proposition that no lookup in the walk of a block misses: every link
is locally found and every child subtree has the same property. -/
inductive NoMiss : Blk → Prop where
  | mk : ∀ raw links, NoMissLinks links → NoMiss (Blk.mk raw links)
/-- No lookup misses anywhere in a link list. -/
inductive NoMissLinks : Links → Prop where
  | nil : NoMissLinks Links.nil
  | cons : ∀ c rest, NoMiss c → NoMissLinks rest →
      NoMissLinks (Links.consFound c rest)
end

/-- A node of the TypeScript virtual filesystem (utils/virtualFs.ts,
src/unnamed/part_001 lines 118-129): a file entry carrying a CID and a
timestamp, or a folder carrying an ordered child list. -/
inductive VfsNode where
  | file (name : String) (cid : String) (timestamp : String)
  | folder (name : String) (children : List VfsNode)

/-- The name of a virtual filesystem node. -/
def vfsName : VfsNode → String
  | VfsNode.file n _ _ => n
  | VfsNode.folder n _ => n

/-- createVirtualFs from utils/virtualFs.ts: the empty root folder. -/
def createVirtualFs : VfsNode := VfsNode.folder "/" []

/-- The path components used by utils/virtualFs.ts:
path.split with separator "/" filtered by Boolean, dropping empty pieces. -/
def jsParts (path : String) : List String :=
  (splitSlash path).filter (fun s => s ≠ "")

/-- findNode from utils/virtualFs.ts lines 140-150, walking the component
list: a non-folder on the way yields null; the next node is the first child
whose name matches. -/
def findNodeAux : List String → VfsNode → Option VfsNode
  | [], current => some current
  | part :: rest, current =>
    match current with
    | VfsNode.file _ _ _ => none
    | VfsNode.folder _ children =>
      match children.find? (fun c => vfsName c == part) with
      | none => none
      | some next => findNodeAux rest next

/-- findNode from utils/virtualFs.ts: resolve a path against a root. -/
def findNode (path : String) (root : VfsNode) : Option VfsNode :=
  findNodeAux (jsParts path) root

/-- Locate the first child with the given name, returning the children
before it, the child itself, and the children after it. -/
def splitFirstChild : List VfsNode → String →
    Option (List VfsNode × VfsNode × List VfsNode)
  | [], _ => none
  | c :: cs, part =>
    if vfsName c == part then some ([], c, cs)
    else
      match splitFirstChild cs part with
      | none => none
      | some (pre, x, post) => some (c :: pre, x, post)

/-- The functional rendering of the push performed by addFile: walk the
component list exactly as findNode does (first matching child at each step)
and append the entry to the child list of the folder reached; if the walk
fails or reaches a non-folder, the tree is returned unchanged, matching the
silent no-op of addFile when findNode returns null or a file. -/
def pushAt : List String → VfsNode → VfsNode → VfsNode
  | [], entry, VfsNode.folder n ch => VfsNode.folder n (ch ++ [entry])
  | [], _, f => f
  | _ :: _, _, VfsNode.file n c t => VfsNode.file n c t
  | part :: rest, entry, VfsNode.folder n ch =>
    match splitFirstChild ch part with
    | none => VfsNode.folder n ch
    | some (pre, c, post) =>
      VfsNode.folder n (pre ++ pushAt rest entry c :: post)

/-- Split off the last element of a component list: addFile pops the file
name from the split path and keeps the folder components. -/
def vfsSplitLast (parts : List String) : Option (List String × String) :=
  match parts.getLast? with
  | none => none
  | some f => some (parts.dropLast, f)

/-- addFile from utils/virtualFs.ts lines 167-177: split the path, pop the
file name (an empty split returns the root unchanged), resolve the folder
path, and, when it resolves to a folder, push a new file entry carrying the
given CID and the current timestamp (passed here as now) onto its child
list — with no check whether a child of that name already exists. -/
def addFile (root : VfsNode) (path : String) (cid : String) (now : String) :
    VfsNode :=
  match vfsSplitLast (jsParts path) with
  | none => root
  | some (rest, fileName) => pushAt rest (VfsNode.file fileName cid now) root

/-- Claim C1, counterexample: with a two-byte file content and offset 3 — a
non-negative offset strictly greater than the content length — the read
command fails with the past-end error instead of succeeding with zero
bytes. -/
theorem filesReadCmd_offset_past_end_errs :
    filesReadCmd [104, 105] 3 none
      = Except.error "offset was past end of file (3 > 2)" := rfl

/-- Claim C1 (amended): a read whose offset is strictly greater than the
content length fails with the past-end error; a read whose offset equals the
content length succeeds and yields zero bytes (with or without a
non-negative count). -/
theorem filesReadCmd_past_end_spec :
    ∀ (content : List Nat) (offset : Int) (count : Option Int),
      ((content.length : Int) < offset →
        filesReadCmd content offset count
          = Except.error ("offset was past end of file (" ++ toString offset
              ++ " > " ++ toString (content.length : Int) ++ ")"))
      ∧ (offset = (content.length : Int) →
          filesReadCmd content offset none = Except.ok [])
      ∧ (∀ c : Int, 0 ≤ c → offset = (content.length : Int) →
          filesReadCmd content offset (some c) = Except.ok []) := by
  intro content offset count
  refine ⟨?_, ?_, ?_⟩
  · intro h
    have h0 : ¬ offset < 0 := by omega
    simp [filesReadCmd, h0, h]
  · intro h
    have h0 : ¬ offset < 0 := by omega
    have h1 : ¬ (content.length : Int) < offset := by omega
    have h2 : offset.toNat = content.length := by omega
    simp [filesReadCmd, h0, h1, h2]
  · intro c hc h
    have h0 : ¬ offset < 0 := by omega
    have h1 : ¬ (content.length : Int) < offset := by omega
    have h2 : offset.toNat = content.length := by omega
    have h3 : ¬ c < 0 := by omega
    simp [filesReadCmd, h0, h1, h2, h3]

/-- Claim C1, witness for the amended theorem at a concrete input. -/
theorem filesReadCmd_past_end_spec_witness :
    filesReadCmd [104, 105] 3 none
        = Except.error "offset was past end of file (3 > 2)"
      ∧ filesReadCmd [104, 105] 2 none = Except.ok [] := by
  refine ⟨?_, ?_⟩
  · have h := (filesReadCmd_past_end_spec [104, 105] 3 none).1 (by decide)
    simpa using h
  · exact (filesReadCmd_past_end_spec [104, 105] 2 none).2.1 (by decide)

/-- Claim C2: the read command fails with an error — producing no bytes —
whenever the offset is negative, or a count is supplied and negative, or the
offset is strictly past the end of the content. -/
theorem filesReadCmd_rejects_invalid :
    ∀ (content : List Nat) (offset : Int) (count : Option Int),
      (offset < 0 ∨ (∃ c, count = some c ∧ c < 0)
          ∨ (content.length : Int) < offset) →
      ∃ e, filesReadCmd content offset count = Except.error e := by
  intro content offset count h
  rcases h with h | ⟨c, hc, hneg⟩ | h
  · exact ⟨"cannot specify negative offset", by simp [filesReadCmd, h]⟩
  · subst hc
    by_cases h0 : offset < 0
    · exact ⟨"cannot specify negative offset", by simp [filesReadCmd, h0]⟩
    · by_cases h1 : (content.length : Int) < offset
      · exact ⟨"offset was past end of file (" ++ toString offset ++ " > "
          ++ toString (content.length : Int) ++ ")", by simp [filesReadCmd, h0, h1]⟩
      · exact ⟨"cannot specify negative count", by simp [filesReadCmd, h0, h1, hneg]⟩
  · by_cases h0 : offset < 0
    · exact ⟨"cannot specify negative offset", by simp [filesReadCmd, h0]⟩
    · exact ⟨"offset was past end of file (" ++ toString offset ++ " > "
        ++ toString (content.length : Int) ++ ")", by simp [filesReadCmd, h0, h]⟩

/-- Claim C2, witness at concrete inputs: a negative offset, a negative
count, and a past-end offset each produce an error. -/
theorem filesReadCmd_rejects_invalid_witness :
    (∃ e, filesReadCmd [104, 105] (-1) none = Except.error e)
      ∧ (∃ e, filesReadCmd [104, 105] 0 (some (-2)) = Except.error e)
      ∧ (∃ e, filesReadCmd [104, 105] 3 none = Except.error e) :=
  ⟨filesReadCmd_rejects_invalid [104, 105] (-1) none (Or.inl (by decide)),
   filesReadCmd_rejects_invalid [104, 105] 0 (some (-2))
     (Or.inr (Or.inl ⟨-2, rfl, by decide⟩)),
   filesReadCmd_rejects_invalid [104, 105] 3 none
     (Or.inr (Or.inr (by decide)))⟩

/-- Claim C3: removing the root path always fails with the root-operation
error, whatever the recursive and force options are; the error is returned
before any tree operation, so the tree is untouched. -/
theorem removePath_root_always_fails :
    ∀ (root : MfsNode) (force dashr : Bool),
      removePath root "/" force dashr = Except.error MfsErr.cannotDeleteRoot := by
  intro root force dashr
  simp [removePath]

/-- Claim C4: the cp command attaches a resolved source node only when it is
a raw leaf block or a well-formed dag-pb node whose payload decodes as a
filesystem node; for every other node it fails with the invalid-content
error before the attachment step runs, so nothing is attached. -/
theorem filesCpCmd_validates_source :
    ∀ (fsNodeOk : List Nat → Bool) (node : IpldNode),
      (validUnixFS fsNodeOk node = false →
        ∀ attach : Except String Unit,
          filesCpCmd fsNodeOk node attach = Except.error errFilesCpInvalidUnixFS
          ∨ filesCpCmd fsNodeOk node attach
              = Except.error (errFilesCpInvalidUnixFS ++ ": invalid data"))
      ∧ (∀ (attach : Except String Unit) (u : Unit),
          filesCpCmd fsNodeOk node attach = Except.ok u →
          validUnixFS fsNodeOk node = true ∧ attach = Except.ok u) := by
  intro fsNodeOk node
  obtain ⟨codec, nrepr⟩ := node
  constructor
  · intro hv attach
    cases codec <;> cases nrepr <;>
      simp_all [filesCpCmd, cpCheckSource, validUnixFS]
  · intro attach u hok
    cases codec <;> cases nrepr <;>
      simp_all [filesCpCmd, cpCheckSource, validUnixFS]
    case dagProtobuf.protoNode d =>
      by_cases hd : fsNodeOk d
      · simp_all
      · simp_all

/-- Claim C4, witness: a node with a codec that is neither raw nor dag-pb
(code 113, dag-cbor) is rejected with the invalid-content error for every
attachment continuation. -/
theorem filesCpCmd_validates_source_witness :
    validUnixFS (fun _ => true) ⟨Codec.other 113, NodeRepr.otherNode⟩ = false
      ∧ (filesCpCmd (fun _ => true) ⟨Codec.other 113, NodeRepr.otherNode⟩
            (Except.ok ()) = Except.error errFilesCpInvalidUnixFS
        ∨ filesCpCmd (fun _ => true) ⟨Codec.other 113, NodeRepr.otherNode⟩
            (Except.ok ())
            = Except.error (errFilesCpInvalidUnixFS ++ ": invalid data")) :=
  ⟨rfl,
   (filesCpCmd_validates_source (fun _ => true)
     ⟨Codec.other 113, NodeRepr.otherNode⟩).1 rfl (Except.ok ())⟩

/-- Claim C5: the rm command attempts every path in its argument list even
when earlier paths fail.  An invalid path appends exactly one error and
leaves the tree alone; a failing removal appends exactly one error and
leaves the tree alone; a successful removal updates the tree and appends
nothing; the loop over a concatenation of argument lists is the loop over
the first followed by the loop over the second from the reached state, so no
failure stops it; and the command reports the combined failure exactly when
at least one error was collected. -/
theorem filesRmCmd_aggregates_errors :
    (∀ (force dashr : Bool) (st : MfsNode × List String) (arg e : String),
      checkPath arg = Except.error e →
      rmStep force dashr st arg
        = (st.1, st.2 ++ [arg ++ " is not a valid path: " ++ e]))
    ∧ (∀ (force dashr : Bool) (st : MfsNode × List String) (arg p : String)
        (e : MfsErr),
      checkPath arg = Except.ok p →
      removePath st.1 p force dashr = Except.error e →
      rmStep force dashr st arg = (st.1, st.2 ++ [p ++ ": " ++ rmErrMsg e]))
    ∧ (∀ (force dashr : Bool) (st : MfsNode × List String) (arg p : String)
        (r : MfsNode),
      checkPath arg = Except.ok p →
      removePath st.1 p force dashr = Except.ok r →
      rmStep force dashr st arg = (r, st.2))
    ∧ (∀ (force dashr : Bool) (st : MfsNode × List String)
        (args1 args2 : List String),
      List.foldl (rmStep force dashr) st (args1 ++ args2)
        = List.foldl (rmStep force dashr)
            (List.foldl (rmStep force dashr) st args1) args2)
    ∧ (∀ (root : MfsNode) (args : List String) (force dashr : Bool),
      (filesRmCmd root args force dashr).2
          = Except.error "cannot remove some files"
        ↔ (filesRmCmd root args force dashr).1.2 ≠ []) := by
  refine ⟨?_, ?_, ?_, ?_, ?_⟩
  · intro force dashr st arg e h
    simp [rmStep, h]
  · intro force dashr st arg p e h1 h2
    simp [rmStep, h1, h2]
  · intro force dashr st arg p r h1 h2
    simp [rmStep, h1, h2]
  · intro force dashr st args1 args2
    exact List.foldl_append _ _ args1 args2
  · intro root args force dashr
    simp only [filesRmCmd]
    by_cases h : (List.foldl (rmStep force dashr) (root, []) args).2 = []
    · simp [h]
    · simp [h]

/-- Claim C5, witness: on a tree holding an entry a, removing the missing
path and then the path of a in one call collects exactly one error for the
missing path, still removes a, and reports the combined failure. -/
theorem filesRmCmd_aggregates_errors_witness :
    rmStep false false
        (MfsNode.dir [("a", MfsNode.file [1])], []) "/missing"
      = (MfsNode.dir [("a", MfsNode.file [1])],
          ["/missing: " ++ rmErrMsg MfsErr.notExist])
    ∧ rmStep false false
        (MfsNode.dir [("a", MfsNode.file [1])],
          ["/missing: " ++ rmErrMsg MfsErr.notExist]) "/a"
      = (MfsNode.dir [],
          ["/missing: " ++ rmErrMsg MfsErr.notExist])
    ∧ (filesRmCmd (MfsNode.dir [("a", MfsNode.file [1])])
          ["/missing", "/a"] false false).2
        = Except.error "cannot remove some files" := by
  refine ⟨?_, ?_, ?_⟩
  · have h := filesRmCmd_aggregates_errors.2.1 false false
      (MfsNode.dir [("a", MfsNode.file [1])], []) "/missing" "/missing"
      MfsErr.notExist rfl rfl
    simpa using h
  · have h := filesRmCmd_aggregates_errors.2.2.1 false false
      (MfsNode.dir [("a", MfsNode.file [1])],
        ["/missing: " ++ rmErrMsg MfsErr.notExist]) "/a" "/a"
      (MfsNode.dir []) rfl rfl
    simpa using h
  · have h := (filesRmCmd_aggregates_errors.2.2.2.2
      (MfsNode.dir [("a", MfsNode.file [1])]) ["/missing", "/a"] false false).mpr
      (by intro hc; exact absurd hc (by decide))
    exact h

/-- Claim C6: for a path that does not exist — whether the parent directory
is missing (the parent lookup reports not-exist) or only the final entry is
missing (the parent resolves but holds no child of that name) — removal
without force fails with the not-found error, while removal with force
succeeds and returns the tree unchanged. -/
theorem removePath_missing_force_semantics :
    ∀ (root : MfsNode) (p : String) (dashr : Bool),
      p ≠ "/" →
      ((getParentDir root (goSplit (stripSlash p)).1
            = Except.error MfsErr.notExist →
          removePath root p false dashr = Except.error MfsErr.notExist
          ∧ removePath root p true dashr = Except.ok root)
        ∧ (∀ es, getParentDir root (goSplit (stripSlash p)).1 = Except.ok es →
            childNamed es (goSplit (stripSlash p)).2 = none →
            removePath root p false dashr = Except.error MfsErr.notExist
            ∧ removePath root p true dashr = Except.ok root)) := by
  intro root p dashr hp
  constructor
  · intro h
    constructor
    · simp [removePath, hp, h]
    · simp [removePath, hp, h]
  · intro es h hc
    constructor
    · simp [removePath, hp, h, hc]
    · simp [removePath, hp, h, hc]

/-- Claim C6, witness: on a tree holding only the file a, removing /missing
(parent present, entry missing) and /x/y (parent missing) each fail with
not-found without force and succeed silently with force. -/
theorem removePath_missing_force_semantics_witness :
    removePath (MfsNode.dir [("a", MfsNode.file [1])]) "/missing" false false
        = Except.error MfsErr.notExist
      ∧ removePath (MfsNode.dir [("a", MfsNode.file [1])]) "/missing" true false
        = Except.ok (MfsNode.dir [("a", MfsNode.file [1])])
      ∧ removePath (MfsNode.dir [("a", MfsNode.file [1])]) "/x/y" false false
        = Except.error MfsErr.notExist
      ∧ removePath (MfsNode.dir [("a", MfsNode.file [1])]) "/x/y" true false
        = Except.ok (MfsNode.dir [("a", MfsNode.file [1])]) := by
  have h1 := ((removePath_missing_force_semantics
    (MfsNode.dir [("a", MfsNode.file [1])]) "/missing" false
    (by decide)).2 [("a", MfsNode.file [1])] rfl rfl)
  have h2 := ((removePath_missing_force_semantics
    (MfsNode.dir [("a", MfsNode.file [1])]) "/x/y" false (by decide)).1 rfl)
  exact ⟨h1.1, h1.2, h2.1, h2.2⟩

mutual
/-- The accumulator walk of walkBlock equals the compositional description:
flag and size of the whole subtree. -/
theorem walkBlock_eq : ∀ b, walkBlock b = (specFullyLocal b, specSizeLocal b)
  | Blk.mk raw links => by
    rw [walkBlock, specFullyLocal, specSizeLocal]
    have h := walkLinks_eq links true raw
    simp [h]
/-- The link loop conjoins the fully-local flag of the remaining links onto
the accumulator and adds their local sizes. -/
theorem walkLinks_eq : ∀ (l : Links) (a : Bool) (s : Nat),
    walkLinks l a s = (a && linksFullyLocal l, s + linksSizeLocal l)
  | Links.nil, a, s => by simp [walkLinks, linksFullyLocal, linksSizeLocal]
  | Links.consMissing rest, a, s => by
    rw [walkLinks, linksFullyLocal, linksSizeLocal]
    have h := walkLinks_eq rest false s
    simp [h]
  | Links.consFound c rest, a, s => by
    rw [walkLinks, linksFullyLocal, linksSizeLocal]
    have h1 := walkBlock_eq c
    rw [h1]
    have h2 := walkLinks_eq rest (a && specFullyLocal c) (s + specSizeLocal c)
    simp [h2, Bool.and_assoc, Nat.add_assoc]
end

mutual
/-- The fully-local flag is true exactly when no lookup in the subtree
misses. -/
theorem specFullyLocal_iff : ∀ b, specFullyLocal b = true ↔ NoMiss b
  | Blk.mk raw links => by
    rw [specFullyLocal]
    constructor
    · intro h
      exact NoMiss.mk raw links ((linksFullyLocal_iff links).mp h)
    · intro h
      cases h with
      | mk _ _ hl => exact (linksFullyLocal_iff links).mpr hl
/-- The fully-local flag of a link list is true exactly when no lookup under
it misses. -/
theorem linksFullyLocal_iff : ∀ l, linksFullyLocal l = true ↔ NoMissLinks l
  | Links.nil => by
    simp [linksFullyLocal]
    exact NoMissLinks.nil
  | Links.consMissing rest => by
    simp [linksFullyLocal]
    intro h
    cases h
  | Links.consFound c rest => by
    rw [linksFullyLocal]
    simp only [Bool.and_eq_true]
    constructor
    · intro h
      exact NoMissLinks.cons c rest ((specFullyLocal_iff c).mp h.1)
        ((linksFullyLocal_iff rest).mp h.2)
    · intro h
      cases h with
      | cons _ _ hc hr =>
        exact ⟨(specFullyLocal_iff c).mpr hc, (linksFullyLocal_iff rest).mpr hr⟩
end

/-- Claim C7: the local-only stat walk returns exactly the pair made of the
fully-local flag and the locally-present byte count of the subtree — the
root block bytes plus, for each link whose child is locally present, the
recursively computed bytes of that child subtree, missing branches being
skipped without aborting the walk — and the flag is true exactly when no
lookup anywhere in the walk missed. -/
theorem walkBlock_local_size_spec :
    ∀ b : Blk,
      walkBlock b = (specFullyLocal b, specSizeLocal b)
      ∧ ((walkBlock b).1 = true ↔ NoMiss b) := by
  intro b
  have h := walkBlock_eq b
  refine ⟨h, ?_⟩
  rw [h]
  exact specFullyLocal_iff b

/-- The lexicographic comparison is total. -/
theorem lexLe_total : ∀ as bs : List Char,
    lexLe as bs = true ∨ lexLe bs as = true := by
  intro as
  induction as with
  | nil => intro bs; left; rfl
  | cons a as ih =>
    intro bs
    cases bs with
    | nil => right; rfl
    | cons b bs =>
      by_cases h1 : a.toNat < b.toNat
      · left; simp [lexLe, h1]
      · by_cases h2 : b.toNat < a.toNat
        · right; simp [lexLe, h2]
        · rcases ih bs with h | h
          · left; simp [lexLe, h1, h2, h]
          · right; simp [lexLe, h1, h2, h]

/-- The lexicographic comparison is transitive. -/
theorem lexLe_trans : ∀ as bs cs : List Char,
    lexLe as bs = true → lexLe bs cs = true → lexLe as cs = true := by
  intro as
  induction as with
  | nil => intro bs cs _ _; rfl
  | cons a as ih =>
    intro bs cs hab hbc
    cases bs with
    | nil => simp [lexLe] at hab
    | cons b bs =>
      cases cs with
      | nil => simp [lexLe] at hbc
      | cons c cs =>
        simp only [lexLe] at hab hbc ⊢
        split_ifs at hab hbc ⊢ <;> try omega
        all_goals try rfl
        · exact ih bs cs hab hbc

/-- Claim C8: the ls text encoder emits entries sorted by name — the emitted
list is name-ordered and is a permutation of the directory entries — when
the do-not-sort option is absent, and emits the entries exactly in directory
order when the option is given. -/
theorem filesLs_sort_spec :
    ∀ entries : List NodeListing,
      (List.Pairwise (fun a b => strLe a.Name b.Name = true)
          (lsOutputOrder false entries)
        ∧ (lsOutputOrder false entries).Perm entries)
      ∧ lsOutputOrder true entries = entries := by
  intro entries
  refine ⟨⟨?_, ?_⟩, ?_⟩
  · have h := @List.sorted_mergeSort NodeListing
      (fun a b => strLe a.Name b.Name)
      (fun a b c hab hbc => lexLe_trans _ _ _ hab hbc)
      (fun a b => by
        rcases lexLe_total a.Name.data b.Name.data with h | h <;>
          simp [strLe, h])
      entries
    simpa [lsOutputOrder] using h
  · simpa [lsOutputOrder] using List.mergeSort_perm entries
      (fun a b => strLe a.Name b.Name)
  · simp [lsOutputOrder]

/-- One rooted clean step keeps the stack free of empty, dot and dot-dot
components. -/
theorem cleanStep_ok :
    ∀ (stack : List String) (part : String),
      (∀ s ∈ stack, s ≠ "" ∧ s ≠ "." ∧ s ≠ "..") →
      ∀ s ∈ cleanStep true stack part, s ≠ "" ∧ s ≠ "." ∧ s ≠ ".." := by
  intro stack part h s hs
  unfold cleanStep at hs
  by_cases h1 : part = "" ∨ part = "."
  · rw [if_pos h1] at hs
    exact h s hs
  · rw [if_neg h1] at hs
    by_cases h2 : part = ".."
    · rw [if_pos h2] at hs
      by_cases h3 : stack ≠ [] ∧ stack.getLast? ≠ some ".."
      · rw [if_pos h3] at hs
        exact h s (List.dropLast_sublist stack |>.subset hs)
      · rw [if_neg h3] at hs
        simp only [if_pos rfl] at hs
        exact h s hs
    · rw [if_neg h2] at hs
      rcases List.mem_append.mp hs with hm | hm
      · exact h s hm
      · have hp : s = part := by simpa using hm
        subst hp
        push_neg at h1
        exact ⟨h1.1, h1.2, h2⟩

/-- The rooted clean stack of any component list, started from a good stack,
stays free of empty, dot and dot-dot components. -/
theorem cleanStack_ok :
    ∀ (parts stack : List String),
      (∀ s ∈ stack, s ≠ "" ∧ s ≠ "." ∧ s ≠ "..") →
      ∀ s ∈ List.foldl (cleanStep true) stack parts,
        s ≠ "" ∧ s ≠ "." ∧ s ≠ ".." := by
  intro parts
  induction parts with
  | nil => intro stack h s hs; exact h s hs
  | cons part rest ih =>
    intro stack h s hs
    exact ih (cleanStep true stack part) (cleanStep_ok stack part h) s hs

/-- Claim C9, counterexample: the flush command is a path-accepting operation
that does not fail on a non-absolute path — it forwards the raw argument to
the tree layer — while checkPath rejects the same string. -/
theorem flush_accepts_unvalidated_path :
    filesFlushCmdPath ["abc"] = Except.ok "abc"
      ∧ checkPath "abc" = Except.error "paths must start with a leading slash" :=
  ⟨rfl, rfl⟩

/-- Claim C9 (amended): every operation that routes its path through
checkPath (read, write, mv, cp, ls, mkdir, stat, rm, chmod, touch) fails
with a path error on an empty path or on a path without a leading separator;
an absolute path is rewritten to the separator-joined cleaned component
stack — which holds no empty, dot or dot-dot components — prefixed by the
separator, with one separator appended when the original non-root path
ended in one.  The flush (and chcid) handlers skip this validation and
always pass their argument through. -/
theorem checkPath_validates_and_normalizes :
    (checkPath "" = Except.error "paths must not be empty")
    ∧ (∀ (p : String) (c : Char) (rest : List Char),
        p.data = c :: rest → c ≠ '/' →
        checkPath p = Except.error "paths must start with a leading slash")
    ∧ (∀ (p : String) (c : Char) (rest : List Char),
        p.data = c :: rest → c = '/' →
        (∀ s ∈ goCleanStack p, s ≠ "" ∧ s ≠ "." ∧ s ≠ "..")
        ∧ goClean p = "/" ++ String.intercalate "/" (goCleanStack p)
        ∧ checkPath p = Except.ok (goClean p
            ++ (if p.data.getLast? = some '/' ∧ p ≠ "/" then "/" else "")))
    ∧ (∀ args : List String, ∃ q, filesFlushCmdPath args = Except.ok q) := by
  refine ⟨rfl, ?_, ?_, ?_⟩
  · intro p c rest h hc
    unfold checkPath
    rw [h]
    simp [hc]
  · intro p c rest h hc
    subst hc
    refine ⟨?_, ?_, ?_⟩
    · intro s hs
      exact cleanStack_ok (splitSlash p) [] (by intro s hs; cases hs) s hs
    · unfold goClean
      rw [h]
      simp [goCleanStack]
    · unfold checkPath
      rw [h]
      by_cases ht : ('/' :: rest).getLast? = some '/' ∧ p ≠ "/"
      · simp [ht]
      · simp [ht]
  · intro args
    exact ⟨_, rfl⟩

/-- Claim C9, witness: a non-absolute path is rejected, and a messy absolute
path with dot, dot-dot and doubled separators and a trailing separator is
normalized to the cleaned path with its single trailing separator back. -/
theorem checkPath_validates_and_normalizes_witness :
    checkPath "abc" = Except.error "paths must start with a leading slash"
      ∧ checkPath "/a/../b//./c/" = Except.ok "/b/c/" := by
  constructor
  · exact checkPath_validates_and_normalizes.2.1 "abc" 'a' ['b', 'c'] rfl
      (by decide)
  · have h := (checkPath_validates_and_normalizes.2.2.1 "/a/../b//./c/" '/'
      "a/../b//./c/".data rfl rfl).2.2
    exact h.trans rfl

/-- Pushing an entry somewhere below a node does not change the name of the
node itself. -/
theorem vfsName_pushAt :
    ∀ (ps : List String) (e nd : VfsNode), vfsName (pushAt ps e nd) = vfsName nd := by
  intro ps e nd
  cases ps with
  | nil => cases nd <;> rfl
  | cons p rest =>
    cases nd with
    | file n c t => rfl
    | folder n ch =>
      simp only [pushAt]
      cases h : splitFirstChild ch p with
      | none => simp [vfsName]
      | some x =>
        obtain ⟨pre, c, post⟩ := x
        simp [vfsName]

/-- When find? locates the first child with a name, splitFirstChild splits
the child list around exactly that child, and every child before it has a
different name. -/
theorem splitFirstChild_spec :
    ∀ (cs : List VfsNode) (part : String) (c : VfsNode),
      List.find? (fun x => vfsName x == part) cs = some c →
      ∃ pre post, splitFirstChild cs part = some (pre, c, post)
        ∧ cs = pre ++ c :: post
        ∧ ∀ x ∈ pre, (vfsName x == part) = false := by
  intro cs part
  induction cs with
  | nil => intro c h; simp [List.find?] at h
  | cons hd tl ih =>
    intro c h
    by_cases hh : (vfsName hd == part) = true
    · rw [List.find?_cons_of_pos (p := fun x => vfsName x == part) (a := hd)
        tl hh] at h
      injection h with h
      subst h
      exact ⟨[], tl, by simp [splitFirstChild, hh], rfl, by simp⟩
    · have hh2 : (vfsName hd == part) = false := by
        simpa using hh
      rw [List.find?_cons_of_neg (p := fun x => vfsName x == part) (a := hd)
        tl (by simp [hh2])] at h
      obtain ⟨pre, post, h1, h2, h3⟩ := ih c h
      refine ⟨hd :: pre, post, ?_, ?_, ?_⟩
      · simp [splitFirstChild, hh2, h1]
      · simp [h2]
      · intro x hx
        rcases List.mem_cons.mp hx with hx | hx
        · subst hx; exact hh2
        · exact h3 x hx

/-- find? over a list that starts with mismatching children followed by a
matching one returns that matching child. -/
theorem find?_first_after :
    ∀ (pre : List VfsNode) (part : String) (y : VfsNode) (post : List VfsNode),
      (∀ x ∈ pre, (vfsName x == part) = false) →
      (vfsName y == part) = true →
      List.find? (fun x => vfsName x == part) (pre ++ y :: post) = some y := by
  intro pre part y post hpre hy
  induction pre with
  | nil =>
    exact List.find?_cons_of_pos (p := fun x => vfsName x == part) (a := y)
      post hy
  | cons z zs ih =>
    have hz := hpre z (by simp)
    rw [List.cons_append, List.find?_cons_of_neg
      (p := fun x => vfsName x == part) (a := z) _ (by simp [hz])]
    exact ih (fun x hx => hpre x (by simp [hx]))

/-- Pushing an entry at the folder reached by a component walk appends it to
the child list that the same walk observes afterwards. -/
theorem pushAt_findNodeAux :
    ∀ (rest : List String) (root : VfsNode) (n : String) (ch : List VfsNode)
      (e : VfsNode),
      findNodeAux rest root = some (VfsNode.folder n ch) →
      findNodeAux rest (pushAt rest e root)
        = some (VfsNode.folder n (ch ++ [e])) := by
  intro rest
  induction rest with
  | nil =>
    intro root n ch e h
    simp only [findNodeAux, Option.some_inj] at h
    subst h
    simp [pushAt, findNodeAux]
  | cons part rs ih =>
    intro root n ch e h
    cases root with
    | file _ _ _ => simp [findNodeAux] at h
    | folder m cs =>
      simp only [findNodeAux] at h
      cases hf : List.find? (fun c => vfsName c == part) cs with
      | none => rw [hf] at h; simp at h
      | some next =>
        rw [hf] at h
        obtain ⟨pre, post, hsplit, hcs, hpre⟩ :=
          splitFirstChild_spec cs part next hf
        have hname : (vfsName next == part) = true := by
          have hn := List.find?_some hf
          simpa using hn
        simp only [pushAt, hsplit]
        simp only [findNodeAux]
        have hname2 : (vfsName (pushAt rs e next) == part) = true := by
          rw [vfsName_pushAt]; exact hname
        rw [find?_first_after pre part _ post hpre hname2]
        exact ih next n ch e h

/-- Claim C10: addFile appends a new file entry to the child list of the
destination folder unconditionally — with no check against the existing
names — so two addFile calls with the same path leave the folder with two
distinct children bearing the same name, and sibling-name uniqueness is not
an invariant of the virtual filesystem structure. -/
theorem addFile_appends_duplicate_names :
    ∀ (root : VfsNode) (path cid cid2 t t2 : String) (rest : List String)
      (fname n : String) (ch : List VfsNode),
      vfsSplitLast (jsParts path) = some (rest, fname) →
      findNodeAux rest root = some (VfsNode.folder n ch) →
      findNodeAux rest (addFile (addFile root path cid t) path cid2 t2)
        = some (VfsNode.folder n
            (ch ++ [VfsNode.file fname cid t, VfsNode.file fname cid2 t2])) := by
  intro root path cid cid2 t t2 rest fname n ch hsplit hfind
  unfold addFile
  rw [hsplit]
  have h1 := pushAt_findNodeAux rest root n ch (VfsNode.file fname cid t) hfind
  have h2 := pushAt_findNodeAux rest (pushAt rest (VfsNode.file fname cid t) root)
    n (ch ++ [VfsNode.file fname cid t]) (VfsNode.file fname cid2 t2) h1
  rw [h2]
  simp

/-- Claim C10, witness: adding the same path twice to the empty root leaves
the root folder with two children both called a.txt. -/
theorem addFile_appends_duplicate_names_witness :
    findNodeAux []
        (addFile (addFile createVirtualFs "/a.txt" "cid1" "t1")
          "/a.txt" "cid2" "t2")
      = some (VfsNode.folder "/"
          [VfsNode.file "a.txt" "cid1" "t1", VfsNode.file "a.txt" "cid2" "t2"]) := by
  have h := addFile_appends_duplicate_names createVirtualFs "/a.txt" "cid1"
    "cid2" "t1" "t2" [] "a.txt" "/" [] rfl rfl
  simpa using h
